import Mathlib

/-!
Shallow embedding of `core/src/banking_stage/vote_storage.rs` (the vote-storage
admission / batching / retry orchestrator) and proofs of its specified
properties.

External collaborators (the execution-context snapshot `Bank`, the sanitizer
`build_sanitized_transaction`, `validate_account_locks`,
`Consumer::check_fee_payer_unlocked`, and the conversion
`LatestValidatorVotePacket::new_from_immutable`) are abstracted as function
parameters: the orchestrator only observes their success/failure and the
produced values, exactly as the Rust code does.

The pending-vote pool `LatestUnprocessedVotes` lives in a different file of
the repository (`latest_unprocessed_votes.rs`, not part of the sources given
here); it is modelled from the spec, see `LatestUnprocessedVotes` below.

Rust `panic!` (process abort) is modelled by returning `Except Panic`.
-/

set_option autoImplicit false

namespace VoteStorageSpec

/-- Validator identity (the vote-account pubkey the pool dedups on). -/
abbrev Pubkey := Nat

/-- A sanitized runtime transaction (`RuntimeTransaction<SanitizedTransaction>`),
abstracted to an identifier; its lock/fee properties are exposed through the
`Bank` predicates below. -/
abbrev SanitizedTx := Nat

/-- An `ImmutableDeserializedPacket`: opaque to the orchestrator except for the
validator it votes for (the pool's dedup key). -/
structure ImmutableDeserializedPacket where
  id : Nat
  validator : Pubkey
deriving DecidableEq

/-- `VoteSource` (defined in `latest_unprocessed_votes.rs`): tags which
producer role fed the storage instance. `Tpu` is the spec's
"DirectSubmission". -/
inductive VoteSource where
  | Tpu
  | Gossip
deriving DecidableEq

/-- The execution-context snapshot (`Bank`) together with the validation
primitives the admission filter calls on it, abstracted as functions:
`build_sanitized_transaction` (sanitization), `validate_account_locks`
(duplicate / over-limit lock check, `true` = ok) and
`Consumer::check_fee_payer_unlocked` (`true` = ok). -/
structure Bank where
  buildSanitizedTransaction : ImmutableDeserializedPacket → Option SanitizedTx
  validateAccountLocksOk : SanitizedTx → Bool
  checkFeePayerUnlockedOk : SanitizedTx → Bool

/-- A pool entry (`LatestValidatorVotePacket`): the packet tagged with the
intake source and the legacy-format policy flag in force at conversion. -/
structure LatestValidatorVotePacket where
  packet : ImmutableDeserializedPacket
  vote_source : VoteSource
  deprecateLegacy : Bool
deriving DecidableEq

/-- `LatestValidatorVotePacket::new_from_immutable`: conversion of a raw
packet into a pool entry. Whether the conversion succeeds (the packet parses
as a recognizable vote under the given legacy-format policy) is abstracted by
the predicate `convOk packet deprecateFlag`. -/
def new_from_immutable (convOk : ImmutableDeserializedPacket → Bool → Bool)
    (packet : ImmutableDeserializedPacket) (source : VoteSource)
    (deprecate : Bool) : Option LatestValidatorVotePacket :=
  if convOk packet deprecate then some ⟨packet, source, deprecate⟩ else none

/-- Modelled from the spec: the pending-vote pool `LatestUnprocessedVotes`
(file `latest_unprocessed_votes.rs`, not among the given sources). Per the
spec it is a validator-deduplicating container of pool entries (at most one
pending entry per validator) carrying the legacy-format policy flag; it
exposes `len`, `is_empty`, `insert_batch(entries, replenish)`,
`drain_unprocessed`, `clear`, `should_deprecate_legacy_vote_ixs` and
`cache_epoch_boundary_info`. -/
structure LatestUnprocessedVotes where
  entries : List LatestValidatorVotePacket
  deprecateLegacyVoteIxs : Bool
deriving DecidableEq

/-- Modelled from the spec: insertion of one entry. If the validator already
has a pending entry, replenish mode refreshes it and no-replenish mode keeps
the old entry (plain insertion "must not evict or refresh an existing pending
vote from the same validator"); otherwise the entry is appended. -/
def LatestUnprocessedVotes.insertEntry (entries : List LatestValidatorVotePacket)
    (e : LatestValidatorVotePacket) (replenish : Bool) :
    List LatestValidatorVotePacket :=
  if entries.any (fun x => x.packet.validator == e.packet.validator) then
    if replenish then
      entries.map (fun x =>
        if x.packet.validator == e.packet.validator then e else x)
    else entries
  else entries ++ [e]

/-- Modelled from the spec: `LatestUnprocessedVotes::insert_batch`. -/
def LatestUnprocessedVotes.insert_batch (pool : LatestUnprocessedVotes)
    (es : List LatestValidatorVotePacket) (replenish : Bool) :
    LatestUnprocessedVotes :=
  { pool with
    entries := es.foldl (fun acc e =>
      LatestUnprocessedVotes.insertEntry acc e replenish) pool.entries }

/-- `LatestUnprocessedVotes::len`. -/
def LatestUnprocessedVotes.len (pool : LatestUnprocessedVotes) : Nat :=
  pool.entries.length

/-- `LatestUnprocessedVotes::is_empty`. -/
def LatestUnprocessedVotes.is_empty (pool : LatestUnprocessedVotes) : Bool :=
  pool.entries.isEmpty

/-- Modelled from the spec: `LatestUnprocessedVotes::drain_unprocessed`
empties the pool and returns the pending packets as the round's working set
(the stake-weighted reordering is abstracted as the identity ordering; no
claim depends on the order of the drained set). -/
def LatestUnprocessedVotes.drain_unprocessed (pool : LatestUnprocessedVotes) :
    List ImmutableDeserializedPacket × LatestUnprocessedVotes :=
  (pool.entries.map (fun e => e.packet), { pool with entries := [] })

/-- `LatestUnprocessedVotes::should_deprecate_legacy_vote_ixs`. -/
def LatestUnprocessedVotes.should_deprecate_legacy_vote_ixs
    (pool : LatestUnprocessedVotes) : Bool :=
  pool.deprecateLegacyVoteIxs

/-- `LatestUnprocessedVotes::clear`. -/
def LatestUnprocessedVotes.clearPool (pool : LatestUnprocessedVotes) :
    LatestUnprocessedVotes :=
  { pool with entries := [] }

/-- Modelled from the spec: `LatestUnprocessedVotes::cache_epoch_boundary_info`
refreshes the round-boundary-dependent cached pool state (here: the
legacy-format policy flag, refreshed from the snapshot's policy). -/
def LatestUnprocessedVotes.cache_epoch_boundary_info
    (pool : LatestUnprocessedVotes) (policy : Bool) : LatestUnprocessedVotes :=
  { pool with deprecateLegacyVoteIxs := policy }

/-- `UNPROCESSED_BUFFER_STEP_SIZE`: fixed chunk width of the processing loop. -/
def UNPROCESSED_BUFFER_STEP_SIZE : Nat := 64

/-- `MAX_NUM_VOTES_RECEIVE`: cap on votes accepted by a single receive call. -/
def MAX_NUM_VOTES_RECEIVE : Nat := 10000

/-- The `VoteStorage` struct: a pool handle plus the immutable intake source. -/
structure VoteStorage where
  latest_unprocessed_votes : LatestUnprocessedVotes
  vote_source : VoteSource
deriving DecidableEq

/-- `VoteStorage::len`. -/
def VoteStorage.len (s : VoteStorage) : Nat :=
  s.latest_unprocessed_votes.len

/-- `VoteStorage::is_empty`. -/
def VoteStorage.is_empty (s : VoteStorage) : Bool :=
  s.latest_unprocessed_votes.is_empty

/-- `VoteStorage::max_receive_size`. -/
def VoteStorage.max_receive_size (_s : VoteStorage) : Nat :=
  MAX_NUM_VOTES_RECEIVE

/-- `VoteStorage::should_not_process`. -/
def VoteStorage.should_not_process (s : VoteStorage) : Bool :=
  s.vote_source == VoteSource.Gossip

/-- `VoteStorage::insert_batch`: convert each raw packet with the instance's
intake source and the pool's current legacy-format policy flag, silently
dropping failed conversions, and insert in no-replenish mode. -/
def VoteStorage.insert_batch (convOk : ImmutableDeserializedPacket → Bool → Bool)
    (s : VoteStorage) (deserialized_packets : List ImmutableDeserializedPacket) :
    VoteStorage :=
  { s with
    latest_unprocessed_votes :=
      s.latest_unprocessed_votes.insert_batch
        (deserialized_packets.filterMap (fun p =>
          new_from_immutable convOk p s.vote_source
            s.latest_unprocessed_votes.should_deprecate_legacy_vote_ixs))
        false }

/-- Rust `panic!` sites of this file, modelled as abort values. -/
inductive Panic where
  | gossipProcessing
  | gossipEpochBoundary
  | indexOutOfBounds
deriving DecidableEq

instance instDecEqExcept {e a : Type} [DecidableEq e] [DecidableEq a] :
    DecidableEq (Except e a)
  | Except.ok x, Except.ok y =>
    if h : x = y then isTrue (h ▸ rfl)
    else isFalse (fun hc => h (Except.ok.inj hc))
  | Except.ok _, Except.error _ => isFalse (fun hc => Except.noConfusion hc)
  | Except.error _, Except.ok _ => isFalse (fun hc => Except.noConfusion hc)
  | Except.error x, Except.error y =>
    if h : x = y then isTrue (h ▸ rfl)
    else isFalse (fun hc => h (Except.error.inj hc))

/-- `consume_scan_should_process_packet`: the admission filter. Returns the
admission decision together with the updated shared sanitized-transaction list
and the updated count of sanitization attempts (the `measure_us` /
`packet_conversion_elapsed` recording, which happens on every non-fast-path
packet regardless of outcome). -/
def consume_scan_should_process_packet (bank : Bank)
    (packet : ImmutableDeserializedPacket) (reached_end_of_slot : Bool)
    (sanitized_transactions : List SanitizedTx) (sanitization_events : Nat) :
    Bool × List SanitizedTx × Nat :=
  if reached_end_of_slot then
    (true, sanitized_transactions, sanitization_events)
  else
    match bank.buildSanitizedTransaction packet with
    | some sanitized_transaction =>
      if bank.validateAccountLocksOk sanitized_transaction = false then
        (false, sanitized_transactions, sanitization_events + 1)
      else if bank.checkFeePayerUnlockedOk sanitized_transaction = false then
        (false, sanitized_transactions, sanitization_events + 1)
      else
        (true, sanitized_transactions ++ [sanitized_transaction],
          sanitization_events + 1)
    | none => (false, sanitized_transactions, sanitization_events + 1)

/-- The chunk-filtering phase of the loop body: run the admission filter over
every packet of the chunk in order, pushing admitted packets onto the
candidate batch (`vote_packets`). -/
def filterChunk (bank : Bank) (reached_end_of_slot : Bool) :
    List ImmutableDeserializedPacket → List ImmutableDeserializedPacket →
    List SanitizedTx → Nat →
    List ImmutableDeserializedPacket × List SanitizedTx × Nat
  | [], vote_packets, txs, ev => (vote_packets, txs, ev)
  | packet :: rest, vote_packets, txs, ev =>
    let r := consume_scan_should_process_packet bank packet reached_end_of_slot
      txs ev
    filterChunk bank reached_end_of_slot rest
      (if r.1 then vote_packets ++ [packet] else vote_packets) r.2.1 r.2.2

/-- The caller-supplied processing step: receives the candidate count, the
round-end flag and the sanitized-transaction list, may mutate the latter two,
and returns the processing verdict. -/
abbrev ProcessingFunction :=
  Nat → Bool → List SanitizedTx →
    Option (List Nat) × Bool × List SanitizedTx

/-- Ghost record of one processing-step invocation (for stating properties of
a round; carries no behavior). -/
structure StepCall where
  chunk : List ImmutableDeserializedPacket
  candidates : List ImmutableDeserializedPacket
  txs_on_entry : List SanitizedTx
  txs_handed : List SanitizedTx
  events_on_entry : Nat
  events_handed : Nat
  flag_on_entry : Bool
  flag_returned : Bool
deriving DecidableEq

/-- Mutable state threaded through the chunk loop of `process_packets`
(plus the ghost invocation trace). -/
structure RoundState where
  reached_end_of_slot : Bool
  sanitized_transactions : List SanitizedTx
  sanitization_events : Nat
  trace : List StepCall
  pool : LatestUnprocessedVotes
deriving DecidableEq

/-- The ghost record of the step invocation a chunk iteration performs from
state `st`. -/
def mkCall (bank : Bank) (f : ProcessingFunction) (st : RoundState)
    (chunk : List ImmutableDeserializedPacket) : StepCall :=
  let fr := filterChunk bank st.reached_end_of_slot chunk []
    st.sanitized_transactions st.sanitization_events
  let step := f fr.1.length st.reached_end_of_slot fr.2.1
  { chunk := chunk
    candidates := fr.1
    txs_on_entry := st.sanitized_transactions
    txs_handed := fr.2.1
    events_on_entry := st.sanitization_events
    events_handed := fr.2.2
    flag_on_entry := st.reached_end_of_slot
    flag_returned := step.2.1 }

/-- One iteration of the chunk loop of `process_packets`: filter the chunk
into the candidate batch, invoke the processing step, and reconcile its
verdict by reinserting into the pool in replenish mode. Indexing the candidate
batch with an out-of-range verdict index panics (`vote_packets[*i]`). -/
def processChunk (bank : Bank) (convOk : ImmutableDeserializedPacket → Bool → Bool)
    (vote_source : VoteSource) (deprecate_legacy_vote_ixs : Bool)
    (f : ProcessingFunction) (st : RoundState)
    (chunk : List ImmutableDeserializedPacket) : Except Panic RoundState :=
  let fr := filterChunk bank st.reached_end_of_slot chunk []
    st.sanitized_transactions st.sanitization_events
  let vote_packets := fr.1
  let step := f vote_packets.length st.reached_end_of_slot fr.2.1
  match step.1 with
  | some retryable_vote_indices =>
    if retryable_vote_indices.all (fun i => decide (i < vote_packets.length)) then
      Except.ok
        { reached_end_of_slot := step.2.1
          sanitized_transactions := step.2.2
          sanitization_events := fr.2.2
          trace := st.trace ++ [mkCall bank f st chunk]
          pool := st.pool.insert_batch
            (retryable_vote_indices.filterMap (fun i =>
              (vote_packets[i]?).bind (fun p =>
                new_from_immutable convOk p vote_source deprecate_legacy_vote_ixs)))
            true }
    else Except.error Panic.indexOutOfBounds
  | none =>
    Except.ok
      { reached_end_of_slot := step.2.1
        sanitized_transactions := step.2.2
        sanitization_events := fr.2.2
        trace := st.trace ++ [mkCall bank f st chunk]
        pool := st.pool.insert_batch
          (vote_packets.filterMap (fun p =>
            new_from_immutable convOk p vote_source deprecate_legacy_vote_ixs))
          true }

/-- The `for chunk in all_vote_packets.chunks(..)` loop. -/
def runChunks (bank : Bank) (convOk : ImmutableDeserializedPacket → Bool → Bool)
    (vote_source : VoteSource) (deprecate_legacy_vote_ixs : Bool)
    (f : ProcessingFunction) (st : RoundState) :
    List (List ImmutableDeserializedPacket) → Except Panic RoundState
  | [] => Except.ok st
  | chunk :: rest =>
    match processChunk bank convOk vote_source deprecate_legacy_vote_ixs f st
      chunk with
    | Except.error e => Except.error e
    | Except.ok st₁ =>
      runChunks bank convOk vote_source deprecate_legacy_vote_ixs f st₁ rest

/-- Fuel-driven helper for `chunksOf` (structural recursion on the fuel so
that the kernel can evaluate it; the fuel is always at least the list
length). -/
def chunksOfFuel {α : Type} (n : Nat) : Nat → List α → List (List α)
  | _, [] => []
  | 0, _ :: _ => []
  | fuel + 1, x :: xs =>
    (x :: xs.take (n - 1)) :: chunksOfFuel n fuel (xs.drop (n - 1))

/-- `slice::chunks`: partition a list into consecutive chunks of size at most
`n` (every chunk nonempty; the last chunk may be shorter). -/
def chunksOf {α : Type} (n : Nat) (l : List α) : List (List α) :=
  chunksOfFuel n l.length l

/-- `VoteStorage::process_packets`, instrumented to return the whole final
loop state (including the ghost trace). Aborts (`Panic.gossipProcessing`) on a
Gossip-sourced instance before touching any state. -/
def VoteStorage.process_packets_run
    (convOk : ImmutableDeserializedPacket → Bool → Bool) (s : VoteStorage)
    (bank : Bank) (f : ProcessingFunction) : Except Panic RoundState :=
  if s.vote_source = VoteSource.Gossip then Except.error Panic.gossipProcessing
  else
    let drained := s.latest_unprocessed_votes.drain_unprocessed
    let deprecate_legacy_vote_ixs :=
      s.latest_unprocessed_votes.should_deprecate_legacy_vote_ixs
    runChunks bank convOk s.vote_source deprecate_legacy_vote_ixs f
      { reached_end_of_slot := false
        sanitized_transactions := []
        sanitization_events := 0
        trace := []
        pool := drained.2 }
      (chunksOf UNPROCESSED_BUFFER_STEP_SIZE drained.1)

/-- `VoteStorage::process_packets`: the public operation — returns the updated
storage and whether the end of slot was reached. -/
def VoteStorage.process_packets
    (convOk : ImmutableDeserializedPacket → Bool → Bool) (s : VoteStorage)
    (bank : Bank) (f : ProcessingFunction) :
    Except Panic (VoteStorage × Bool) :=
  (VoteStorage.process_packets_run convOk s bank f).map (fun st =>
    ({ s with latest_unprocessed_votes := st.pool }, st.reached_end_of_slot))

/-- `VoteStorage::clear`. -/
def VoteStorage.clearStorage (s : VoteStorage) : VoteStorage :=
  { s with latest_unprocessed_votes := s.latest_unprocessed_votes.clearPool }

/-- `VoteStorage::cache_epoch_boundary_info`: aborts
(`Panic.gossipEpochBoundary`) on a Gossip-sourced instance before touching any
state; otherwise delegates to the pool. -/
def VoteStorage.cache_epoch_boundary_info (s : VoteStorage) (policy : Bool) :
    Except Panic VoteStorage :=
  if s.vote_source = VoteSource.Gossip then
    Except.error Panic.gossipEpochBoundary
  else
    Except.ok
      { s with
        latest_unprocessed_votes :=
          s.latest_unprocessed_votes.cache_epoch_boundary_info policy }

/-! ### Characterization of the admission filter -/

/-- The outcome of the non-fast-path admission pipeline on one packet:
`some tx` iff the packet sanitizes and passes both validations, in which case
`tx` is the transaction it appends. -/
def admitTx (bank : Bank) (p : ImmutableDeserializedPacket) :
    Option SanitizedTx :=
  match bank.buildSanitizedTransaction p with
  | some tx =>
    if bank.validateAccountLocksOk tx && bank.checkFeePayerUnlockedOk tx then
      some tx
    else none
  | none => none

/-- Whether the non-fast-path admission pipeline admits the packet. -/
def admits (bank : Bank) (p : ImmutableDeserializedPacket) : Bool :=
  (admitTx bank p).isSome

/-- The candidate batch (`vote_packets`) the chunk iteration starting from
state `st` builds for `chunk`. -/
def candidateBatch (bank : Bank) (st : RoundState)
    (chunk : List ImmutableDeserializedPacket) :
    List ImmutableDeserializedPacket :=
  (filterChunk bank st.reached_end_of_slot chunk [] st.sanitized_transactions
    st.sanitization_events).1

/-- The sanitized-transaction list handed to the processing step by the chunk
iteration starting from state `st`. -/
def handedTxs (bank : Bank) (st : RoundState)
    (chunk : List ImmutableDeserializedPacket) : List SanitizedTx :=
  (filterChunk bank st.reached_end_of_slot chunk [] st.sanitized_transactions
    st.sanitization_events).2.1

/-- The sanitization-attempt count after the chunk iteration's filtering
phase. -/
def handedEvents (bank : Bank) (st : RoundState)
    (chunk : List ImmutableDeserializedPacket) : Nat :=
  (filterChunk bank st.reached_end_of_slot chunk [] st.sanitized_transactions
    st.sanitization_events).2.2

/-- The verdict the processing step returns in the chunk iteration starting
from state `st`. -/
def stepVerdict (bank : Bank) (f : ProcessingFunction) (st : RoundState)
    (chunk : List ImmutableDeserializedPacket) : Option (List Nat) :=
  (f (candidateBatch bank st chunk).length st.reached_end_of_slot
    (handedTxs bank st chunk)).1

/-- The round-end flag the processing step returns in the chunk iteration
starting from state `st`. -/
def stepFlagOut (bank : Bank) (f : ProcessingFunction) (st : RoundState)
    (chunk : List ImmutableDeserializedPacket) : Bool :=
  (f (candidateBatch bank st chunk).length st.reached_end_of_slot
    (handedTxs bank st chunk)).2.1

/-- The sanitized-transaction list as mutated by the processing step in the
chunk iteration starting from state `st`. -/
def stepTxsOut (bank : Bank) (f : ProcessingFunction) (st : RoundState)
    (chunk : List ImmutableDeserializedPacket) : List SanitizedTx :=
  (f (candidateBatch bank st chunk).length st.reached_end_of_slot
    (handedTxs bank st chunk)).2.2

/-- Follows the spec's words (§4.4 step 5): the raw packets a chunk's verdict
selects for reinsertion — "explicit retry set present → only the Raw Packets
at those indices; no explicit set → every Raw Packet of the current Candidate
Batch". -/
def reinsertedPackets_spec (verdict : Option (List Nat))
    (candidates : List ImmutableDeserializedPacket) :
    List ImmutableDeserializedPacket :=
  match verdict with
  | some idxs => idxs.filterMap (fun i => candidates[i]?)
  | none => candidates

/-- The trace entries of a (partial) round chain the round-end flag: each
invocation sees the flag the previous invocation returned. -/
def FlagChain : Bool → List StepCall → Bool → Prop
  | b, [], b₁ => b₁ = b
  | b, c :: cs, b₁ => c.flag_on_entry = b ∧ FlagChain c.flag_returned cs b₁

/-- The facts true of every step invocation a chunk iteration performs. -/
def CallGood (bank : Bank) (f : ProcessingFunction) (c : StepCall) : Prop :=
  c.flag_returned = (f c.candidates.length c.flag_on_entry c.txs_handed).2.1 ∧
  (c.flag_on_entry = true →
    c.candidates = c.chunk ∧ c.txs_handed = c.txs_on_entry ∧
      c.events_handed = c.events_on_entry) ∧
  (c.flag_on_entry = false →
    c.candidates = c.chunk.filter (fun p => admits bank p) ∧
    c.txs_handed = c.txs_on_entry ++ c.chunk.filterMap (admitTx bank) ∧
    c.events_handed = c.events_on_entry + c.chunk.length) ∧
  c.candidates.length ≤ c.chunk.length

/-- The trace of a round outcome. -/
def traceOf (r : Except Panic RoundState) : List StepCall :=
  match r with
  | Except.ok st => st.trace
  | Except.error _ => []

/-- Whether the round completed without aborting. -/
def roundOk (r : Except Panic RoundState) : Bool :=
  match r with
  | Except.ok _ => true
  | Except.error _ => false

/-- The final round-end flag of a completed round. -/
def flagOf (r : Except Panic RoundState) : Option Bool :=
  match r with
  | Except.ok st => some st.reached_end_of_slot
  | Except.error _ => none

/-! ### Concrete instances used to exercise the definitions -/

/-- A snapshot on which sanitization always fails. -/
def bankRejecting : Bank := ⟨fun _ => none, fun _ => true, fun _ => true⟩

/-- A snapshot on which every packet sanitizes (to its own id) and passes both
validations. -/
def bankAccepting : Bank := ⟨fun p => some p.id, fun _ => true, fun _ => true⟩

/-- A conversion that always succeeds. -/
def convAll : ImmutableDeserializedPacket → Bool → Bool := fun _ _ => true

/-- A processing step that returns no explicit retry set and touches nothing. -/
def stepNone : ProcessingFunction := fun _ b t => (none, b, t)

/-- A processing step that returns the full index range of every chunk. -/
def stepFullRange : ProcessingFunction :=
  fun n b t => (some (List.range n), b, t)

/-- A processing step that sets the round-end flag, returns an empty retry
set, and leaves the transaction list untouched. -/
def stepSetFlag : ProcessingFunction := fun _ _ t => (some [], true, t)

/-- A pool holding the given packets as Tpu-tagged entries. -/
def poolOf (ps : List ImmutableDeserializedPacket) : LatestUnprocessedVotes :=
  ⟨ps.map (fun p => ⟨p, VoteSource.Tpu, false⟩), false⟩

/-- A Tpu-sourced storage holding the given packets. -/
def storageTpu (ps : List ImmutableDeserializedPacket) : VoteStorage :=
  ⟨poolOf ps, VoteSource.Tpu⟩

/-- An empty Gossip-sourced storage. -/
def storageGossip : VoteStorage := ⟨⟨[], false⟩, VoteSource.Gossip⟩

/-- The empty initial loop state over an empty pool. -/
def st0 : RoundState := ⟨false, [], 0, [], ⟨[], false⟩⟩

/-- A single concrete packet (id 0, validator 0). -/
def pkt00 : ImmutableDeserializedPacket := ⟨0, 0⟩

/-- 130 packets with distinct validators. -/
def packets130 : List ImmutableDeserializedPacket :=
  (List.range 130).map (fun i => ⟨i, i⟩)

/-- 65 packets with distinct validators. -/
def packets65 : List ImmutableDeserializedPacket :=
  (List.range 65).map (fun i => ⟨i, i⟩)

/-- A snapshot on which every packet sanitizes but fails the account-lock
validation. -/
def bankLockFail : Bank := ⟨fun p => some p.id, fun _ => false, fun _ => true⟩

/-- A snapshot on which every packet sanitizes and passes the lock validation
but fails the fee-payer check. -/
def bankFeeFail : Bank := ⟨fun p => some p.id, fun _ => true, fun _ => false⟩

/-- The literal reading of the index-correlation claim for one step
invocation: for every `i` below the candidate count, the transaction derived
from the `i`-th candidate sits at position `i` of the list handed to the
step. -/
def c3StatedOK (bank : Bank) (c : StepCall) : Bool :=
  (List.range c.candidates.length).all (fun i =>
    match c.candidates[i]? with
    | some p =>
      match bank.buildSanitizedTransaction p with
      | some tx => c.txs_handed[i]? == some tx
      | none => false
    | none => false)

/-- The pool entries `VoteStorage::insert_batch` hands to the pool: each
packet converted with the instance's intake source and the pool's current
legacy-format policy flag, failures dropped. -/
def convertedEntries (convOk : ImmutableDeserializedPacket → Bool → Bool)
    (s : VoteStorage) (packets : List ImmutableDeserializedPacket) :
    List LatestValidatorVotePacket :=
  packets.filterMap (fun p =>
    new_from_immutable convOk p s.vote_source
      s.latest_unprocessed_votes.should_deprecate_legacy_vote_ixs)

theorem consume_scan_true (bank : Bank) (p : ImmutableDeserializedPacket)
    (txs : List SanitizedTx) (ev : Nat) :
    consume_scan_should_process_packet bank p true txs ev = (true, txs, ev) :=
  rfl

theorem consume_scan_false (bank : Bank) (p : ImmutableDeserializedPacket)
    (txs : List SanitizedTx) (ev : Nat) :
    consume_scan_should_process_packet bank p false txs ev =
      (admits bank p, txs ++ (admitTx bank p).toList, ev + 1) := by
  unfold consume_scan_should_process_packet admits admitTx
  cases hb : bank.buildSanitizedTransaction p with
  | none => simp
  | some tx =>
    cases hl : bank.validateAccountLocksOk tx <;>
      cases hf : bank.checkFeePayerUnlockedOk tx <;> simp [hl, hf]

theorem filterChunk_true (bank : Bank)
    (chunk : List ImmutableDeserializedPacket)
    (vps : List ImmutableDeserializedPacket) (txs : List SanitizedTx)
    (ev : Nat) :
    filterChunk bank true chunk vps txs ev = (vps ++ chunk, txs, ev) := by
  induction chunk generalizing vps with
  | nil => simp [filterChunk]
  | cons p rest ih =>
    simp [filterChunk, consume_scan_true, ih]

theorem filterChunk_false (bank : Bank)
    (chunk : List ImmutableDeserializedPacket)
    (vps : List ImmutableDeserializedPacket) (txs : List SanitizedTx)
    (ev : Nat) :
    filterChunk bank false chunk vps txs ev =
      (vps ++ chunk.filter (fun p => admits bank p),
        txs ++ chunk.filterMap (admitTx bank), ev + chunk.length) := by
  induction chunk generalizing vps txs ev with
  | nil => simp [filterChunk]
  | cons p rest ih =>
    simp only [filterChunk, consume_scan_false]
    cases ha : admits bank p with
    | false =>
      have hnone : admitTx bank p = none := by
        unfold admits at ha
        exact Option.not_isSome_iff_eq_none.mp (by simp [ha])
      simp [ha, hnone, ih, List.filter_cons, List.filterMap_cons]
      omega
    | true =>
      obtain ⟨tx, htx⟩ : ∃ tx, admitTx bank p = some tx :=
        Option.isSome_iff_exists.mp (by unfold admits at ha; exact ha)
      simp [ha, htx, ih, List.filter_cons, List.filterMap_cons]
      omega

/-! ### Facts about the chunk partition -/

theorem chunksOfFuel_congr {α : Type} (n : Nat) :
    ∀ (fuel₁ fuel₂ : Nat) (l : List α), l.length ≤ fuel₁ → l.length ≤ fuel₂ →
      chunksOfFuel n fuel₁ l = chunksOfFuel n fuel₂ l := by
  intro fuel₁
  induction fuel₁ with
  | zero =>
    intro fuel₂ l h₁ h₂
    have hl : l = [] := List.eq_nil_of_length_eq_zero (Nat.le_zero.mp h₁)
    subst hl
    cases fuel₂ <;> rfl
  | succ fu ih =>
    intro fuel₂ l h₁ h₂
    cases l with
    | nil => cases fuel₂ <;> rfl
    | cons x xs =>
      cases fuel₂ with
      | zero => simp at h₂
      | succ fu₂ =>
        show (x :: xs.take (n - 1)) :: chunksOfFuel n fu (xs.drop (n - 1)) =
          (x :: xs.take (n - 1)) :: chunksOfFuel n fu₂ (xs.drop (n - 1))
        congr 1
        apply ih
        · simp only [List.length_drop, List.length_cons] at h₁ ⊢
          omega
        · simp only [List.length_drop, List.length_cons] at h₂ ⊢
          omega

theorem chunksOf_nil {α : Type} (n : Nat) : chunksOf n ([] : List α) = [] :=
  rfl

theorem chunksOf_cons {α : Type} (n : Nat) (x : α) (xs : List α) :
    chunksOf n (x :: xs) =
      (x :: xs.take (n - 1)) :: chunksOf n (xs.drop (n - 1)) := by
  have h1 : chunksOf n (x :: xs) =
      (x :: xs.take (n - 1)) :: chunksOfFuel n xs.length (xs.drop (n - 1)) :=
    rfl
  rw [h1]
  congr 1
  apply chunksOfFuel_congr
  · simp only [List.length_drop]
    omega
  · exact Nat.le_refl _

theorem chunksOf_flatten {α : Type} (n : Nat) :
    ∀ l : List α, (chunksOf n l).flatten = l
  | [] => by rw [chunksOf_nil]; rfl
  | x :: xs => by
    rw [chunksOf_cons, List.flatten_cons, chunksOf_flatten n (xs.drop (n - 1))]
    simp
termination_by l => l.length
decreasing_by
  simp only [List.length_drop, List.length_cons]
  omega

theorem chunksOf_length {α : Type} (n : Nat) (hn : 0 < n) (l : List α) :
    (chunksOf n l).length = (l.length + n - 1) / n := by
  cases l with
  | nil =>
    simp only [chunksOf_nil, List.length_nil, Nat.zero_add]
    rw [Nat.div_eq_of_lt (by omega)]
  | cons x xs =>
    rw [chunksOf_cons]
    simp only [List.length_cons, chunksOf_length n hn (xs.drop (n - 1)),
      List.length_drop]
    have hr : xs.length + 1 + n - 1 = xs.length + n := by omega
    rw [hr, Nat.add_div_right _ hn]
    by_cases h : n - 1 ≤ xs.length
    · have h1 : xs.length - (n - 1) + n - 1 = xs.length := by omega
      rw [h1]
    · have h1 : xs.length - (n - 1) = 0 := by omega
      rw [h1, Nat.div_eq_of_lt (by omega), Nat.div_eq_of_lt (by omega)]
termination_by l.length
decreasing_by
  simp only [List.length_drop, List.length_cons]
  omega

theorem chunksOf_mem_length {α : Type} (n : Nat) (hn : 0 < n) :
    ∀ (l : List α) (c : List α), c ∈ chunksOf n l → c.length ≤ n
  | [], c, hc => by simp [chunksOf_nil] at hc
  | x :: xs, c, hc => by
    rw [chunksOf_cons] at hc
    rcases List.mem_cons.mp hc with h | h
    · subst h
      simp only [List.length_cons, List.length_take]
      have hmin := Nat.min_le_left (n - 1) xs.length
      omega
    · exact chunksOf_mem_length n hn (xs.drop (n - 1)) c h
termination_by l => l.length
decreasing_by
  simp only [List.length_drop, List.length_cons]
  omega

theorem chunksOf_ne_nil {α : Type} (n : Nat) (l : List α) (h : l ≠ []) :
    chunksOf n l ≠ [] := by
  cases l with
  | nil => exact absurd rfl h
  | cons x xs => rw [chunksOf_cons]; exact List.cons_ne_nil _ _

/-! ### Facts about pool insertion -/

theorem insertEntry_fresh (entries : List LatestValidatorVotePacket)
    (e : LatestValidatorVotePacket) (rep : Bool)
    (h : ∀ x ∈ entries, x.packet.validator ≠ e.packet.validator) :
    LatestUnprocessedVotes.insertEntry entries e rep = entries ++ [e] := by
  unfold LatestUnprocessedVotes.insertEntry
  rw [if_neg]
  intro hany
  rcases List.any_eq_true.mp hany with ⟨x, hx, hbx⟩
  exact h x hx (by simpa using hbx)

theorem insertEntry_preserves (entries : List LatestValidatorVotePacket)
    (e : LatestValidatorVotePacket) (x : LatestValidatorVotePacket)
    (hx : x ∈ entries) :
    x ∈ LatestUnprocessedVotes.insertEntry entries e false := by
  unfold LatestUnprocessedVotes.insertEntry
  by_cases h : entries.any (fun y => y.packet.validator == e.packet.validator)
  · simp [h, hx]
  · simp only [h, Bool.false_eq_true, if_false]
    exact List.mem_append_left _ hx

/-- Inserting entries for validators that are pairwise distinct and all absent
from the pool appends them (in either mode). -/
theorem insert_batch_fresh (pool : LatestUnprocessedVotes)
    (es : List LatestValidatorVotePacket) (rep : Bool)
    (hfresh : ∀ e ∈ es, ∀ x ∈ pool.entries,
      x.packet.validator ≠ e.packet.validator)
    (hnd : (es.map (fun e => e.packet.validator)).Nodup) :
    (pool.insert_batch es rep).entries = pool.entries ++ es := by
  induction es generalizing pool with
  | nil => simp [LatestUnprocessedVotes.insert_batch]
  | cons e rest ih =>
    have h1 : LatestUnprocessedVotes.insertEntry pool.entries e rep =
        pool.entries ++ [e] :=
      insertEntry_fresh pool.entries e rep (fun x hx =>
        hfresh e (List.mem_cons_self e rest) x hx)
    have hnd' := hnd
    simp only [List.map_cons, List.nodup_cons] at hnd'
    have key : (LatestUnprocessedVotes.insert_batch
        { pool with entries := pool.entries ++ [e] } rest rep).entries =
        (pool.entries ++ [e]) ++ rest := by
      apply ih
      · intro e' he' x hx
        rcases List.mem_append.mp hx with h | h
        · exact hfresh e' (List.mem_cons_of_mem e he') x h
        · have hx1 : x = e := by simpa using h
          subst hx1
          intro hcontra
          exact hnd'.1 (by
            rw [hcontra]
            exact List.mem_map_of_mem (fun y => y.packet.validator) he')
      · exact hnd'.2
    calc (pool.insert_batch (e :: rest) rep).entries
        = (LatestUnprocessedVotes.insert_batch
            { pool with entries := pool.entries ++ [e] } rest rep).entries := by
          simp [LatestUnprocessedVotes.insert_batch, h1]
      _ = pool.entries ++ (e :: rest) := by
          rw [key]; simp

/-- No-replenish insertion never removes an existing pending entry. -/
theorem insert_batch_preserves (pool : LatestUnprocessedVotes)
    (es : List LatestValidatorVotePacket) (x : LatestValidatorVotePacket)
    (hx : x ∈ pool.entries) :
    x ∈ (pool.insert_batch es false).entries := by
  induction es generalizing pool with
  | nil => simpa [LatestUnprocessedVotes.insert_batch] using hx
  | cons e rest ih =>
    have h1 : x ∈ LatestUnprocessedVotes.insertEntry pool.entries e false :=
      insertEntry_preserves pool.entries e x hx
    have := ih { pool with
      entries := LatestUnprocessedVotes.insertEntry pool.entries e false } h1
    simpa [LatestUnprocessedVotes.insert_batch] using this

/-! ### The invocation trace of a round -/

theorem mkCall_good (bank : Bank) (f : ProcessingFunction) (st : RoundState)
    (chunk : List ImmutableDeserializedPacket) :
    CallGood bank f (mkCall bank f st chunk) := by
  cases hflag : st.reached_end_of_slot with
  | true =>
    unfold CallGood mkCall
    simp [hflag, filterChunk_true]
  | false =>
    unfold CallGood mkCall
    simp [hflag, filterChunk_false]
    exact List.length_filter_le _ _

theorem processChunk_ok (bank : Bank)
    (convOk : ImmutableDeserializedPacket → Bool → Bool) (src : VoteSource)
    (dep : Bool) (f : ProcessingFunction) (st : RoundState)
    (chunk : List ImmutableDeserializedPacket) (st₁ : RoundState)
    (h : processChunk bank convOk src dep f st chunk = Except.ok st₁) :
    st₁.trace = st.trace ++ [mkCall bank f st chunk] ∧
      st₁.reached_end_of_slot = (mkCall bank f st chunk).flag_returned := by
  unfold processChunk at h
  dsimp only at h
  split at h
  · split at h
    · cases h
      exact ⟨rfl, rfl⟩
    · cases h
  · cases h
    exact ⟨rfl, rfl⟩

/-- Master lemma about the chunk loop: a completed run appends one trace
entry per chunk, each entry records a genuine step invocation
(`CallGood`) on a chunk of the partition, and the entries chain the
round-end flag from the initial to the final state. -/
theorem runChunks_ok (bank : Bank)
    (convOk : ImmutableDeserializedPacket → Bool → Bool) (src : VoteSource)
    (dep : Bool) (f : ProcessingFunction)
    (cl : List (List ImmutableDeserializedPacket)) :
    ∀ (st st' : RoundState),
      runChunks bank convOk src dep f st cl = Except.ok st' →
      ∃ ext : List StepCall,
        st'.trace = st.trace ++ ext ∧
        ext.length = cl.length ∧
        FlagChain st.reached_end_of_slot ext st'.reached_end_of_slot ∧
        (∀ c ∈ ext, CallGood bank f c ∧ c.chunk ∈ cl) := by
  induction cl with
  | nil =>
    intro st st' h
    unfold runChunks at h
    cases h
    exact ⟨[], by simp, rfl, rfl, by simp⟩
  | cons chunk rest ih =>
    intro st st' h
    unfold runChunks at h
    cases hpc : processChunk bank convOk src dep f st chunk with
    | error e => rw [hpc] at h; cases h
    | ok st₁ =>
      rw [hpc] at h
      obtain ⟨ext, htr, hlen, hchain, hgood⟩ := ih st₁ st' h
      obtain ⟨htr1, hflag1⟩ :=
        processChunk_ok bank convOk src dep f st chunk st₁ hpc
      refine ⟨mkCall bank f st chunk :: ext, ?_, ?_, ?_, ?_⟩
      · rw [htr, htr1, List.append_assoc]
        rfl
      · simp [hlen]
      · exact ⟨rfl, hflag1 ▸ hchain⟩
      · intro c hc
        rcases List.mem_cons.mp hc with h1 | h1
        · subst h1
          exact ⟨mkCall_good bank f st chunk, List.mem_cons_self _ _⟩
        · exact ⟨(hgood c h1).1, List.mem_cons_of_mem _ (hgood c h1).2⟩

theorem flagChain_nil_or_last (ext : List StepCall) :
    ∀ (b b₁ : Bool), FlagChain b ext b₁ →
      (ext = [] → b₁ = b) ∧
      (∀ c, ext.getLast? = some c → b₁ = c.flag_returned) := by
  induction ext with
  | nil =>
    intro b b₁ h
    exact ⟨fun _ => h, fun c hc => by simp at hc⟩
  | cons c cs ih =>
    intro b b₁ h
    refine ⟨fun hne => absurd hne (List.cons_ne_nil _ _), fun c₁ hc₁ => ?_⟩
    cases cs with
    | nil =>
      simp only [List.getLast?_singleton, Option.some.injEq] at hc₁
      subst hc₁
      exact (ih c.flag_returned b₁ h.2).1 rfl
    | cons d ds =>
      have hlast : (d :: ds).getLast? = some c₁ := by
        rw [← hc₁, List.getLast?_cons_cons]
      exact (ih c.flag_returned b₁ h.2).2 c₁ hlast

theorem flagChain_preserved (ext : List StepCall) :
    ∀ (b b₁ : Bool), FlagChain b ext b₁ →
      (∀ c ∈ ext, c.flag_returned = c.flag_on_entry) → b₁ = b := by
  induction ext with
  | nil => intro b b₁ h _; exact h
  | cons c cs ih =>
    intro b b₁ h hpres
    have h1 : c.flag_returned = b := by
      rw [hpres c (List.mem_cons_self _ _), h.1]
    rw [← h1]
    exact ih c.flag_returned b₁ h.2 (fun d hd =>
      hpres d (List.mem_cons_of_mem _ hd))

theorem flagChain_true_all (ext : List StepCall) :
    ∀ (b₁ : Bool), FlagChain true ext b₁ →
      (∀ c ∈ ext, c.flag_on_entry = true → c.flag_returned = true) →
      ∀ c ∈ ext, c.flag_on_entry = true := by
  induction ext with
  | nil => intro b₁ _ _ c hc; simp at hc
  | cons c cs ih =>
    intro b₁ h hmono d hd
    rcases List.mem_cons.mp hd with h1 | h1
    · subst h1; exact h.1
    · have hret : c.flag_returned = true :=
        hmono c (List.mem_cons_self _ _) h.1
      exact ih b₁ (hret ▸ h.2) (fun e he => hmono e (List.mem_cons_of_mem _ he))
        d h1

theorem flagChain_propagates (ext : List StepCall) :
    ∀ (b b₁ : Bool), FlagChain b ext b₁ →
      (∀ c ∈ ext, c.flag_on_entry = true → c.flag_returned = true) →
      ∀ (i j : Nat) (hi : i < ext.length) (hj : j < ext.length), i < j →
        (ext.get ⟨i, hi⟩).flag_returned = true →
        (ext.get ⟨j, hj⟩).flag_on_entry = true := by
  induction ext with
  | nil => intro b b₁ _ _ i j hi _ _ _; simp at hi
  | cons c cs ih =>
    intro b b₁ h hmono i j hi hj hij hset
    cases i with
    | zero =>
      cases j with
      | zero => cases hij
      | succ j₀ =>
        simp only [List.get_cons_succ]
        have hstart : FlagChain true cs b₁ := by
          have : c.flag_returned = true := hset
          exact this ▸ h.2
        exact flagChain_true_all cs b₁ hstart
          (fun e he => hmono e (List.mem_cons_of_mem _ he))
          (cs.get ⟨j₀, Nat.lt_of_succ_lt_succ hj⟩)
          (List.get_mem cs j₀ (Nat.lt_of_succ_lt_succ hj))
    | succ i₀ =>
      cases j with
      | zero => cases hij
      | succ j₀ =>
        simp only [List.get_cons_succ] at hset ⊢
        exact ih c.flag_returned b₁ h.2
          (fun e he => hmono e (List.mem_cons_of_mem _ he)) i₀ j₀
          (Nat.lt_of_succ_lt_succ hi) (Nat.lt_of_succ_lt_succ hj)
          (Nat.lt_of_succ_lt_succ hij) hset

/-! ### Unfolding equations for the chunk iteration and the round -/

theorem mkCall_candidates (bank : Bank) (f : ProcessingFunction)
    (st : RoundState) (chunk : List ImmutableDeserializedPacket) :
    (mkCall bank f st chunk).candidates = candidateBatch bank st chunk := rfl

theorem mkCall_txs_handed (bank : Bank) (f : ProcessingFunction)
    (st : RoundState) (chunk : List ImmutableDeserializedPacket) :
    (mkCall bank f st chunk).txs_handed = handedTxs bank st chunk := rfl

theorem mkCall_flag_returned (bank : Bank) (f : ProcessingFunction)
    (st : RoundState) (chunk : List ImmutableDeserializedPacket) :
    (mkCall bank f st chunk).flag_returned = stepFlagOut bank f st chunk := rfl

theorem processChunk_eq (bank : Bank)
    (convOk : ImmutableDeserializedPacket → Bool → Bool) (src : VoteSource)
    (dep : Bool) (f : ProcessingFunction) (st : RoundState)
    (chunk : List ImmutableDeserializedPacket) :
    processChunk bank convOk src dep f st chunk =
      match stepVerdict bank f st chunk with
      | some retryable_vote_indices =>
        if retryable_vote_indices.all
            (fun i => decide (i < (candidateBatch bank st chunk).length)) then
          Except.ok
            { reached_end_of_slot := stepFlagOut bank f st chunk
              sanitized_transactions := stepTxsOut bank f st chunk
              sanitization_events := handedEvents bank st chunk
              trace := st.trace ++ [mkCall bank f st chunk]
              pool := st.pool.insert_batch
                (retryable_vote_indices.filterMap (fun i =>
                  ((candidateBatch bank st chunk)[i]?).bind (fun p =>
                    new_from_immutable convOk p src dep)))
                true }
        else Except.error Panic.indexOutOfBounds
      | none =>
        Except.ok
          { reached_end_of_slot := stepFlagOut bank f st chunk
            sanitized_transactions := stepTxsOut bank f st chunk
            sanitization_events := handedEvents bank st chunk
            trace := st.trace ++ [mkCall bank f st chunk]
            pool := st.pool.insert_batch
              ((candidateBatch bank st chunk).filterMap (fun p =>
                new_from_immutable convOk p src dep))
              true } := rfl

theorem processChunk_error_eq (bank : Bank)
    (convOk : ImmutableDeserializedPacket → Bool → Bool) (src : VoteSource)
    (dep : Bool) (f : ProcessingFunction) (st : RoundState)
    (chunk : List ImmutableDeserializedPacket) (e : Panic)
    (h : processChunk bank convOk src dep f st chunk = Except.error e) :
    e = Panic.indexOutOfBounds := by
  rw [processChunk_eq] at h
  split at h
  · split at h
    · cases h
    · cases h; rfl
  · cases h

theorem runChunks_error_eq (bank : Bank)
    (convOk : ImmutableDeserializedPacket → Bool → Bool) (src : VoteSource)
    (dep : Bool) (f : ProcessingFunction)
    (cl : List (List ImmutableDeserializedPacket)) :
    ∀ (st : RoundState) (e : Panic),
      runChunks bank convOk src dep f st cl = Except.error e →
      e = Panic.indexOutOfBounds := by
  induction cl with
  | nil => intro st e h; unfold runChunks at h; cases h
  | cons chunk rest ih =>
    intro st e h
    unfold runChunks at h
    cases hpc : processChunk bank convOk src dep f st chunk with
    | error e₁ =>
      rw [hpc] at h
      cases h
      exact processChunk_error_eq bank convOk src dep f st chunk e hpc
    | ok st₁ =>
      rw [hpc] at h
      exact ih st₁ e h

theorem process_packets_run_eq
    (convOk : ImmutableDeserializedPacket → Bool → Bool) (s : VoteStorage)
    (bank : Bank) (f : ProcessingFunction)
    (hne : s.vote_source ≠ VoteSource.Gossip) :
    VoteStorage.process_packets_run convOk s bank f =
      runChunks bank convOk s.vote_source
        s.latest_unprocessed_votes.should_deprecate_legacy_vote_ixs f
        { reached_end_of_slot := false
          sanitized_transactions := []
          sanitization_events := 0
          trace := []
          pool := (s.latest_unprocessed_votes.drain_unprocessed).2 }
        (chunksOf UNPROCESSED_BUFFER_STEP_SIZE
          (s.latest_unprocessed_votes.drain_unprocessed).1) := by
  unfold VoteStorage.process_packets_run
  rw [if_neg hne]

theorem map_ne_error_of_only_oob (r : Except Panic RoundState)
    (g : RoundState → VoteStorage × Bool)
    (hr : ∀ e, r = Except.error e → e = Panic.indexOutOfBounds) :
    r.map g ≠ Except.error Panic.gossipProcessing := by
  cases r with
  | ok st => simp [Except.map]
  | error e =>
    have he := hr e rfl
    subst he
    simp [Except.map]

theorem processChunk_oob (bank : Bank)
    (convOk : ImmutableDeserializedPacket → Bool → Bool) (src : VoteSource)
    (dep : Bool) (f : ProcessingFunction) (st : RoundState)
    (chunk : List ImmutableDeserializedPacket) (idxs : List Nat)
    (hf : stepVerdict bank f st chunk = some idxs) (i : Nat) (hi : i ∈ idxs)
    (hge : (candidateBatch bank st chunk).length ≤ i) :
    processChunk bank convOk src dep f st chunk =
      Except.error Panic.indexOutOfBounds := by
  have hnall : ¬ (idxs.all
      (fun i => decide (i < (candidateBatch bank st chunk).length)) = true) := by
    intro hall
    have h1 := List.all_eq_true.mp hall i hi
    rw [decide_eq_true_eq] at h1
    omega
  rw [processChunk_eq, hf]
  dsimp only
  rw [if_neg hnall]

theorem processChunk_inbounds (bank : Bank)
    (convOk : ImmutableDeserializedPacket → Bool → Bool) (src : VoteSource)
    (dep : Bool) (f : ProcessingFunction) (st : RoundState)
    (chunk : List ImmutableDeserializedPacket) (idxs : List Nat)
    (hf : stepVerdict bank f st chunk = some idxs) (st₁ : RoundState)
    (h : processChunk bank convOk src dep f st chunk = Except.ok st₁) :
    ∀ i ∈ idxs, i < (candidateBatch bank st chunk).length := by
  rw [processChunk_eq, hf] at h
  dsimp only at h
  split at h
  · intro i hi
    next hall =>
      have h1 := List.all_eq_true.mp hall i hi
      rwa [decide_eq_true_eq] at h1
  · cases h

/-! ### Claims -/

/-- C5: for every Gossip-sourced storage instance, both `process_packets` and
`cache_epoch_boundary_info` abort the process (before mutating any state: in
the embedding the abort is returned before any pool operation is applied);
for every direct-submission (`Tpu`) instance, `process_packets` never aborts
on this precondition (only the unrelated index-out-of-bounds abort is
possible) and `cache_epoch_boundary_info` succeeds. -/
theorem c5_gossip_precondition
    (convOk : ImmutableDeserializedPacket → Bool → Bool) (s : VoteStorage)
    (bank : Bank) (f : ProcessingFunction) (policy : Bool) :
    (s.vote_source = VoteSource.Gossip →
      VoteStorage.process_packets convOk s bank f =
        Except.error Panic.gossipProcessing ∧
      VoteStorage.cache_epoch_boundary_info s policy =
        Except.error Panic.gossipEpochBoundary) ∧
    (s.vote_source = VoteSource.Tpu →
      VoteStorage.process_packets convOk s bank f ≠
        Except.error Panic.gossipProcessing ∧
      VoteStorage.cache_epoch_boundary_info s policy =
        Except.ok { s with
          latest_unprocessed_votes :=
            s.latest_unprocessed_votes.cache_epoch_boundary_info policy }) := by
  constructor
  · intro hg
    constructor
    · simp [VoteStorage.process_packets, VoteStorage.process_packets_run, hg,
        Except.map]
    · simp [VoteStorage.cache_epoch_boundary_info, hg]
  · intro ht
    have hne : s.vote_source ≠ VoteSource.Gossip := by
      rw [ht]; intro hc; cases hc
    constructor
    · unfold VoteStorage.process_packets
      rw [process_packets_run_eq convOk s bank f hne]
      exact map_ne_error_of_only_oob _ _ (fun e he =>
        runChunks_error_eq bank convOk s.vote_source
          s.latest_unprocessed_votes.should_deprecate_legacy_vote_ixs f _ _ e he)
    · simp [VoteStorage.cache_epoch_boundary_info, hne]

theorem c5_witness :
    (VoteStorage.process_packets convAll storageGossip bankRejecting stepNone =
        Except.error Panic.gossipProcessing ∧
      VoteStorage.cache_epoch_boundary_info storageGossip false =
        Except.error Panic.gossipEpochBoundary) ∧
    (VoteStorage.process_packets convAll (storageTpu []) bankRejecting stepNone ≠
        Except.error Panic.gossipProcessing ∧
      VoteStorage.cache_epoch_boundary_info (storageTpu []) false =
        Except.ok { storageTpu [] with
          latest_unprocessed_votes :=
            (storageTpu []).latest_unprocessed_votes.cache_epoch_boundary_info
              false }) :=
  ⟨(c5_gossip_precondition convAll storageGossip bankRejecting stepNone
      false).1 rfl,
    (c5_gossip_precondition convAll (storageTpu []) bankRejecting stepNone
      false).2 rfl⟩

/-- C2: for every chunk iteration that completes, the pool update is exactly
an insertion, in replenish mode, of the packets the spec's verdict-resolution
rule selects — the Candidate-Batch packets at the verdict's indices when an
explicit retry set is present, every Candidate-Batch packet when the verdict
is `None` — each passed through the usual pool-entry conversion. -/
theorem c2_reconcile_replenish (bank : Bank)
    (convOk : ImmutableDeserializedPacket → Bool → Bool) (src : VoteSource)
    (dep : Bool) (f : ProcessingFunction) (st : RoundState)
    (chunk : List ImmutableDeserializedPacket) (st₁ : RoundState)
    (h : processChunk bank convOk src dep f st chunk = Except.ok st₁) :
    st₁.pool = st.pool.insert_batch
      ((reinsertedPackets_spec (stepVerdict bank f st chunk)
          (candidateBatch bank st chunk)).filterMap
        (fun p => new_from_immutable convOk p src dep)) true := by
  rw [processChunk_eq] at h
  cases hv : stepVerdict bank f st chunk with
  | none =>
    rw [hv] at h
    dsimp only at h
    cases h
    rfl
  | some idxs =>
    rw [hv] at h
    dsimp only at h
    split at h
    · cases h
      dsimp only [reinsertedPackets_spec]
      rw [List.filterMap_filterMap]
    · cases h

theorem c2_witness :
    (⟨false, [0], 1, [⟨[pkt00], [pkt00], [], [0], 0, 1, false, false⟩],
        ⟨[⟨pkt00, VoteSource.Tpu, false⟩], false⟩⟩ : RoundState).pool =
      LatestUnprocessedVotes.insert_batch (⟨[], false⟩ : LatestUnprocessedVotes)
        ((reinsertedPackets_spec (stepVerdict bankAccepting stepNone st0 [pkt00])
            (candidateBatch bankAccepting st0 [pkt00])).filterMap
          (fun p => new_from_immutable convAll p VoteSource.Tpu false)) true :=
  c2_reconcile_replenish bankAccepting convAll VoteSource.Tpu false stepNone
    st0 [pkt00] _ rfl

/-- C10: a verdict index at or above the candidate count makes the chunk
iteration abort with the index-out-of-bounds panic; a chunk iteration that
completes had every verdict index below the candidate count; and a whole
`process_packets` round on a nonempty Tpu-sourced pool aborts when the step
always returns the out-of-range index `candidate_count`. -/
theorem c10_oob_verdict_panics :
    (∀ (bank : Bank) (convOk : ImmutableDeserializedPacket → Bool → Bool)
      (src : VoteSource) (dep : Bool) (f : ProcessingFunction)
      (st : RoundState) (chunk : List ImmutableDeserializedPacket)
      (idxs : List Nat), stepVerdict bank f st chunk = some idxs →
      ((∃ i ∈ idxs, (candidateBatch bank st chunk).length ≤ i) →
        processChunk bank convOk src dep f st chunk =
          Except.error Panic.indexOutOfBounds) ∧
      (∀ st₁, processChunk bank convOk src dep f st chunk = Except.ok st₁ →
        ∀ i ∈ idxs, i < (candidateBatch bank st chunk).length)) ∧
    (∀ (convOk : ImmutableDeserializedPacket → Bool → Bool) (s : VoteStorage)
      (bank : Bank) (f : ProcessingFunction),
      s.vote_source = VoteSource.Tpu →
      s.latest_unprocessed_votes.entries ≠ [] →
      (∀ n b t, (f n b t).1 = some [n]) →
      VoteStorage.process_packets convOk s bank f =
        Except.error Panic.indexOutOfBounds) := by
  constructor
  · intro bank convOk src dep f st chunk idxs hf
    constructor
    · intro hoob
      obtain ⟨i, hi, hge⟩ := hoob
      exact processChunk_oob bank convOk src dep f st chunk idxs hf i hi hge
    · intro st₁ h
      exact processChunk_inbounds bank convOk src dep f st chunk idxs hf st₁ h
  · intro convOk s bank f hsrc hne hf
    have hg : s.vote_source ≠ VoteSource.Gossip := by
      rw [hsrc]; intro hc; cases hc
    unfold VoteStorage.process_packets
    rw [process_packets_run_eq convOk s bank f hg]
    have hd : (s.latest_unprocessed_votes.drain_unprocessed).1 ≠ [] := by
      unfold LatestUnprocessedVotes.drain_unprocessed
      simpa using hne
    obtain ⟨c, rest, hcl⟩ : ∃ c rest,
        chunksOf UNPROCESSED_BUFFER_STEP_SIZE
          (s.latest_unprocessed_votes.drain_unprocessed).1 = c :: rest := by
      cases hh : chunksOf UNPROCESSED_BUFFER_STEP_SIZE
          (s.latest_unprocessed_votes.drain_unprocessed).1 with
      | nil => exact absurd hh (chunksOf_ne_nil _ _ hd)
      | cons c rest => exact ⟨c, rest, rfl⟩
    rw [hcl]
    unfold runChunks
    rw [processChunk_oob bank convOk s.vote_source
      s.latest_unprocessed_votes.should_deprecate_legacy_vote_ixs f _ c
      [(candidateBatch bank
        ⟨false, [], 0, [], (s.latest_unprocessed_votes.drain_unprocessed).2⟩
        c).length]
      (hf _ _ _) _ (List.mem_singleton.mpr rfl) (Nat.le_refl _)]
    rfl

theorem c10_witness :
    ((∃ i ∈ [(candidateBatch bankAccepting st0 [pkt00]).length],
        (candidateBatch bankAccepting st0 [pkt00]).length ≤ i) →
      processChunk bankAccepting convAll VoteSource.Tpu false
        (fun n b t => (some [n], b, t)) st0 [pkt00] =
        Except.error Panic.indexOutOfBounds) ∧
    (∀ st₁, processChunk bankAccepting convAll VoteSource.Tpu false
        (fun n b t => (some [n], b, t)) st0 [pkt00] = Except.ok st₁ →
      ∀ i ∈ [(candidateBatch bankAccepting st0 [pkt00]).length],
        i < (candidateBatch bankAccepting st0 [pkt00]).length) ∧
    VoteStorage.process_packets convAll (storageTpu [pkt00]) bankAccepting
      (fun n b t => (some [n], b, t)) = Except.error Panic.indexOutOfBounds := by
  refine ⟨?_, ?_, ?_⟩
  · exact (c10_oob_verdict_panics.1 bankAccepting convAll VoteSource.Tpu false
      (fun n b t => (some [n], b, t)) st0 [pkt00] _ rfl).1
  · exact (c10_oob_verdict_panics.1 bankAccepting convAll VoteSource.Tpu false
      (fun n b t => (some [n], b, t)) st0 [pkt00] _ rfl).2
  · exact c10_oob_verdict_panics.2 convAll (storageTpu [pkt00]) bankAccepting
      (fun n b t => (some [n], b, t)) rfl (by decide) (fun n b t => rfl)

theorem drain_length (pool : LatestUnprocessedVotes) :
    (pool.drain_unprocessed).1.length = pool.len := by
  simp [LatestUnprocessedVotes.drain_unprocessed, LatestUnprocessedVotes.len]

theorem run_ok_facts (convOk : ImmutableDeserializedPacket → Bool → Bool)
    (s : VoteStorage) (bank : Bank) (f : ProcessingFunction) (st' : RoundState)
    (h : VoteStorage.process_packets_run convOk s bank f = Except.ok st') :
    st'.trace.length = (chunksOf UNPROCESSED_BUFFER_STEP_SIZE
      (s.latest_unprocessed_votes.drain_unprocessed).1).length ∧
    FlagChain false st'.trace st'.reached_end_of_slot ∧
    (∀ c ∈ st'.trace, CallGood bank f c ∧
      c.chunk ∈ chunksOf UNPROCESSED_BUFFER_STEP_SIZE
        (s.latest_unprocessed_votes.drain_unprocessed).1) := by
  by_cases hg : s.vote_source = VoteSource.Gossip
  · unfold VoteStorage.process_packets_run at h
    rw [if_pos hg] at h
    cases h
  · rw [process_packets_run_eq convOk s bank f hg] at h
    obtain ⟨ext, htr, hlen, hchain, hgood⟩ :=
      runChunks_ok bank convOk s.vote_source
        s.latest_unprocessed_votes.should_deprecate_legacy_vote_ixs f _ _ _ h
    simp only [List.nil_append] at htr
    rw [htr]
    exact ⟨hlen, hchain, hgood⟩

/-- C7: every drained working set is processed as consecutive chunks of at
most 64 packets, with exactly one processing-step invocation per chunk
(`ceil(len/64)` invocations in total, each with candidate count at most 64);
a working set of 130 packets yields exactly 3 chunks and 3 invocations. -/
theorem c7_chunking (convOk : ImmutableDeserializedPacket → Bool → Bool)
    (s : VoteStorage) (bank : Bank) (f : ProcessingFunction)
    (h : roundOk (VoteStorage.process_packets_run convOk s bank f) = true) :
    (traceOf (VoteStorage.process_packets_run convOk s bank f)).length =
      (s.len + UNPROCESSED_BUFFER_STEP_SIZE - 1) / UNPROCESSED_BUFFER_STEP_SIZE ∧
    (∀ c ∈ traceOf (VoteStorage.process_packets_run convOk s bank f),
      c.chunk.length ≤ UNPROCESSED_BUFFER_STEP_SIZE ∧
      c.candidates.length ≤ UNPROCESSED_BUFFER_STEP_SIZE) ∧
    (s.len = 130 →
      (traceOf (VoteStorage.process_packets_run convOk s bank f)).length = 3) := by
  cases hr : VoteStorage.process_packets_run convOk s bank f with
  | error e => rw [hr] at h; simp [roundOk] at h
  | ok st' =>
    obtain ⟨hlen, _, hgood⟩ := run_ok_facts convOk s bank f st' hr
    have hn : 0 < UNPROCESSED_BUFFER_STEP_SIZE := by
      unfold UNPROCESSED_BUFFER_STEP_SIZE; omega
    have hcount : st'.trace.length =
        (s.len + UNPROCESSED_BUFFER_STEP_SIZE - 1) / UNPROCESSED_BUFFER_STEP_SIZE := by
      rw [hlen, chunksOf_length _ hn, drain_length]
      rfl
    refine ⟨by simpa [traceOf] using hcount, ?_, ?_⟩
    · intro c hc
      simp only [traceOf] at hc
      obtain ⟨hcg, hcm⟩ := hgood c hc
      have hchunk := chunksOf_mem_length _ hn _ _ hcm
      exact ⟨hchunk, Nat.le_trans hcg.2.2.2 hchunk⟩
    · intro h130
      simp only [traceOf]
      rw [hcount, h130]
      unfold UNPROCESSED_BUFFER_STEP_SIZE
      norm_num

set_option maxRecDepth 16384 in
set_option maxHeartbeats 1600000 in
theorem c7_witness :
    (traceOf (VoteStorage.process_packets_run convAll (storageTpu packets130)
        bankAccepting stepNone)).length =
      ((storageTpu packets130).len + UNPROCESSED_BUFFER_STEP_SIZE - 1) /
        UNPROCESSED_BUFFER_STEP_SIZE ∧
    (∀ c ∈ traceOf (VoteStorage.process_packets_run convAll
        (storageTpu packets130) bankAccepting stepNone),
      c.chunk.length ≤ UNPROCESSED_BUFFER_STEP_SIZE ∧
      c.candidates.length ≤ UNPROCESSED_BUFFER_STEP_SIZE) ∧
    ((storageTpu packets130).len = 130 →
      (traceOf (VoteStorage.process_packets_run convAll (storageTpu packets130)
        bankAccepting stepNone)).length = 3) :=
  c7_chunking convAll (storageTpu packets130) bankAccepting stepNone (by decide)

/-- C9: the loop visits every chunk of the drained working set (one step
invocation per chunk, never early-exiting, whatever the step does to the
flag), and the boolean `process_packets` returns is the round-end flag as of
the last invocation (`false` when there is no invocation or when the step
never sets the flag). -/
theorem c9_no_early_exit_and_return
    (convOk : ImmutableDeserializedPacket → Bool → Bool) (s : VoteStorage)
    (bank : Bank) (f : ProcessingFunction)
    (h : roundOk (VoteStorage.process_packets_run convOk s bank f) = true) :
    (traceOf (VoteStorage.process_packets_run convOk s bank f)).length =
      (chunksOf UNPROCESSED_BUFFER_STEP_SIZE
        (s.latest_unprocessed_votes.drain_unprocessed).1).length ∧
    (∀ st', VoteStorage.process_packets_run convOk s bank f = Except.ok st' →
      VoteStorage.process_packets convOk s bank f =
        Except.ok ({ s with latest_unprocessed_votes := st'.pool },
          st'.reached_end_of_slot) ∧
      (st'.trace = [] → st'.reached_end_of_slot = false) ∧
      (∀ c, st'.trace.getLast? = some c →
        st'.reached_end_of_slot = c.flag_returned)) ∧
    ((∀ n b t, (f n b t).2.1 = b) →
      flagOf (VoteStorage.process_packets_run convOk s bank f) = some false) := by
  cases hr : VoteStorage.process_packets_run convOk s bank f with
  | error e => rw [hr] at h; simp [roundOk] at h
  | ok st' =>
    obtain ⟨hlen, hchain, hgood⟩ := run_ok_facts convOk s bank f st' hr
    refine ⟨by simpa [traceOf] using hlen, ?_, ?_⟩
    · intro st₁ h₁
      injection h₁ with h₂
      subst h₂
      refine ⟨by simp [VoteStorage.process_packets, hr, Except.map], ?_, ?_⟩
      · intro hnil
        exact (flagChain_nil_or_last st'.trace false st'.reached_end_of_slot
          hchain).1 hnil
      · intro c hc
        exact (flagChain_nil_or_last st'.trace false st'.reached_end_of_slot
          hchain).2 c hc
    · intro hpres
      simp only [flagOf, Option.some.injEq]
      apply flagChain_preserved st'.trace false st'.reached_end_of_slot hchain
      intro c hc
      have hcg := (hgood c hc).1
      rw [hcg.1, hpres]

set_option maxRecDepth 16384 in
theorem c9_witness :
    (traceOf (VoteStorage.process_packets_run convAll (storageTpu [pkt00])
        bankAccepting stepNone)).length =
      (chunksOf UNPROCESSED_BUFFER_STEP_SIZE
        ((storageTpu [pkt00]).latest_unprocessed_votes.drain_unprocessed).1).length ∧
    (∀ st', VoteStorage.process_packets_run convAll (storageTpu [pkt00])
        bankAccepting stepNone = Except.ok st' →
      VoteStorage.process_packets convAll (storageTpu [pkt00]) bankAccepting
          stepNone =
        Except.ok ({ storageTpu [pkt00] with
          latest_unprocessed_votes := st'.pool }, st'.reached_end_of_slot) ∧
      (st'.trace = [] → st'.reached_end_of_slot = false) ∧
      (∀ c, st'.trace.getLast? = some c →
        st'.reached_end_of_slot = c.flag_returned)) ∧
    ((∀ n b t, (stepNone n b t).2.1 = b) →
      flagOf (VoteStorage.process_packets_run convAll (storageTpu [pkt00])
        bankAccepting stepNone) = some false) :=
  c9_no_early_exit_and_return convAll (storageTpu [pkt00]) bankAccepting
    stepNone (by decide)

/-- C4: with the round-end flag set, the admission filter admits the packet
unconditionally and performs no sanitization work (no transaction built or
appended, no sanitization time recorded); consequently, once some invocation
of a (flag-preserving-upward) processing step returns the flag set, every
later chunk of the round is admitted wholesale with no sanitization side
effects. -/
theorem c4_round_end_fast_path :
    (∀ (bank : Bank) (p : ImmutableDeserializedPacket)
      (txs : List SanitizedTx) (ev : Nat),
      consume_scan_should_process_packet bank p true txs ev = (true, txs, ev)) ∧
    (∀ (convOk : ImmutableDeserializedPacket → Bool → Bool) (s : VoteStorage)
      (bank : Bank) (f : ProcessingFunction),
      roundOk (VoteStorage.process_packets_run convOk s bank f) = true →
      (∀ n t, (f n true t).2.1 = true) →
      ∀ (i j : Nat)
        (hi : i < (traceOf (VoteStorage.process_packets_run convOk s bank f)).length)
        (hj : j < (traceOf (VoteStorage.process_packets_run convOk s bank f)).length),
        i < j →
        ((traceOf (VoteStorage.process_packets_run convOk s bank f)).get
          ⟨i, hi⟩).flag_returned = true →
        ((traceOf (VoteStorage.process_packets_run convOk s bank f)).get
            ⟨j, hj⟩).flag_on_entry = true ∧
        ((traceOf (VoteStorage.process_packets_run convOk s bank f)).get
            ⟨j, hj⟩).candidates =
          ((traceOf (VoteStorage.process_packets_run convOk s bank f)).get
            ⟨j, hj⟩).chunk ∧
        ((traceOf (VoteStorage.process_packets_run convOk s bank f)).get
            ⟨j, hj⟩).txs_handed =
          ((traceOf (VoteStorage.process_packets_run convOk s bank f)).get
            ⟨j, hj⟩).txs_on_entry ∧
        ((traceOf (VoteStorage.process_packets_run convOk s bank f)).get
            ⟨j, hj⟩).events_handed =
          ((traceOf (VoteStorage.process_packets_run convOk s bank f)).get
            ⟨j, hj⟩).events_on_entry) := by
  refine ⟨fun bank p txs ev => consume_scan_true bank p txs ev, ?_⟩
  intro convOk s bank f h hmono i j hi hj hij hset
  revert hi hj hset
  cases hr : VoteStorage.process_packets_run convOk s bank f with
  | error e => rw [hr] at h; simp [roundOk] at h
  | ok st' =>
    intro hi hj hset
    obtain ⟨_, hchain, hgood⟩ := run_ok_facts convOk s bank f st' hr
    have hmono' : ∀ c ∈ st'.trace,
        c.flag_on_entry = true → c.flag_returned = true := by
      intro c hc hce
      have hcg := (hgood c hc).1
      rw [hcg.1, hce, hmono]
    simp only [traceOf] at hi hj hset ⊢
    have hjflag := flagChain_propagates st'.trace false st'.reached_end_of_slot
      hchain hmono' i j hi hj hij hset
    have hjgood := (hgood (st'.trace.get ⟨j, hj⟩)
      (List.get_mem st'.trace j hj)).1
    obtain ⟨hc1, hc2, hc3⟩ := hjgood.2.1 hjflag
    exact ⟨hjflag, hc1, hc2, hc3⟩

set_option maxRecDepth 16384 in
set_option maxHeartbeats 1600000 in
theorem c4_witness :
    consume_scan_should_process_packet bankRejecting pkt00 true [] 0 =
      (true, [], 0) ∧
    (((traceOf (VoteStorage.process_packets_run convAll (storageTpu packets65)
        bankAccepting stepSetFlag)).get ⟨1, by decide⟩).flag_on_entry = true ∧
      ((traceOf (VoteStorage.process_packets_run convAll (storageTpu packets65)
          bankAccepting stepSetFlag)).get ⟨1, by decide⟩).candidates =
        ((traceOf (VoteStorage.process_packets_run convAll (storageTpu packets65)
          bankAccepting stepSetFlag)).get ⟨1, by decide⟩).chunk ∧
      ((traceOf (VoteStorage.process_packets_run convAll (storageTpu packets65)
          bankAccepting stepSetFlag)).get ⟨1, by decide⟩).txs_handed =
        ((traceOf (VoteStorage.process_packets_run convAll (storageTpu packets65)
          bankAccepting stepSetFlag)).get ⟨1, by decide⟩).txs_on_entry ∧
      ((traceOf (VoteStorage.process_packets_run convAll (storageTpu packets65)
          bankAccepting stepSetFlag)).get ⟨1, by decide⟩).events_handed =
        ((traceOf (VoteStorage.process_packets_run convAll (storageTpu packets65)
          bankAccepting stepSetFlag)).get ⟨1, by decide⟩).events_on_entry) :=
  ⟨c4_round_end_fast_path.1 bankRejecting pkt00 [] 0,
    c4_round_end_fast_path.2 convAll (storageTpu packets65) bankAccepting
      stepSetFlag (by decide) (fun n t => rfl) 0 1 (by decide) (by decide)
      (by decide) (by decide)⟩

/-- C6: with the round-end flag unset, a packet whose sanitization fails, or
whose transaction fails the account-lock validation, or whose fee payer fails
the funded/unlocked check, is rejected: the filter returns `false`, the
shared transaction list is unchanged by it (its transaction never appears),
and the packet is not pushed onto the Candidate Batch. -/
theorem c6_admission_rejection (bank : Bank) (p : ImmutableDeserializedPacket)
    (txs : List SanitizedTx) (ev : Nat) (st : RoundState)
    (chunk : List ImmutableDeserializedPacket) :
    (bank.buildSanitizedTransaction p = none →
      consume_scan_should_process_packet bank p false txs ev =
        (false, txs, ev + 1)) ∧
    (∀ tx, bank.buildSanitizedTransaction p = some tx →
      bank.validateAccountLocksOk tx = false →
      consume_scan_should_process_packet bank p false txs ev =
        (false, txs, ev + 1)) ∧
    (∀ tx, bank.buildSanitizedTransaction p = some tx →
      bank.validateAccountLocksOk tx = true →
      bank.checkFeePayerUnlockedOk tx = false →
      consume_scan_should_process_packet bank p false txs ev =
        (false, txs, ev + 1)) ∧
    (st.reached_end_of_slot = false → admits bank p = false →
      p ∉ candidateBatch bank st chunk ∧
      handedTxs bank st chunk =
        st.sanitized_transactions ++ chunk.filterMap (admitTx bank)) := by
  refine ⟨?_, ?_, ?_, ?_⟩
  · intro hb
    simp [consume_scan_should_process_packet, hb]
  · intro tx hb hl
    simp [consume_scan_should_process_packet, hb, hl]
  · intro tx hb hl hf
    simp [consume_scan_should_process_packet, hb, hl, hf]
  · intro hflag hadm
    unfold candidateBatch handedTxs
    rw [hflag, filterChunk_false]
    refine ⟨?_, rfl⟩
    intro hmem
    simp only [List.nil_append, List.mem_filter] at hmem
    rw [hadm] at hmem
    exact Bool.false_ne_true hmem.2

theorem c6_witness :
    consume_scan_should_process_packet bankRejecting pkt00 false [] 0 =
      (false, [], 0 + 1) ∧
    consume_scan_should_process_packet bankLockFail pkt00 false [] 0 =
      (false, [], 0 + 1) ∧
    consume_scan_should_process_packet bankFeeFail pkt00 false [] 0 =
      (false, [], 0 + 1) ∧
    (pkt00 ∉ candidateBatch bankLockFail st0 [pkt00] ∧
      handedTxs bankLockFail st0 [pkt00] =
        st0.sanitized_transactions ++ [pkt00].filterMap (admitTx bankLockFail)) :=
  ⟨(c6_admission_rejection bankRejecting pkt00 [] 0 st0 [pkt00]).1 rfl,
    (c6_admission_rejection bankLockFail pkt00 [] 0 st0 [pkt00]).2.1
      pkt00.id rfl rfl,
    (c6_admission_rejection bankFeeFail pkt00 [] 0 st0 [pkt00]).2.2.1
      pkt00.id rfl rfl rfl,
    (c6_admission_rejection bankLockFail pkt00 [] 0 st0 [pkt00]).2.2.2
      rfl (by decide)⟩

theorem range_filterMap_getElem {α β : Type} (l : List α) (g : α → Option β) :
    (List.range l.length).filterMap (fun i => l[i]?.bind g) = l.filterMap g := by
  induction l with
  | nil => rfl
  | cons x xs ih =>
    have hcomp : ((fun i => (x :: xs)[i]?.bind g) ∘ Nat.succ) =
        (fun i => xs[i]?.bind g) := by
      funext i
      simp
    rw [List.length_cons, List.range_succ_eq_map, List.filterMap_cons,
      List.filterMap_map, hcomp, ih]
    cases hgx : g x with
    | none => simp [List.filterMap_cons, hgx]
    | some b => simp [List.filterMap_cons, hgx]

theorem filterMap_new_from_immutable_eq_map
    (convOk : ImmutableDeserializedPacket → Bool → Bool) (src : VoteSource)
    (dep : Bool) (l : List ImmutableDeserializedPacket)
    (h : ∀ p ∈ l, convOk p dep = true) :
    l.filterMap (fun p => new_from_immutable convOk p src dep) =
      l.map (fun p => (⟨p, src, dep⟩ : LatestValidatorVotePacket)) := by
  induction l with
  | nil => rfl
  | cons p ps ih =>
    have hp := h p (List.mem_cons_self _ _)
    have hsome : new_from_immutable convOk p src dep =
        some ⟨p, src, dep⟩ := by
      simp [new_from_immutable, hp]
    simp only [List.filterMap_cons, hsome, List.map_cons]
    rw [ih (fun q hq => h q (List.mem_cons_of_mem _ hq))]

/-- Core induction for C1: when every packet of the working set is admitted
and reconverts, and the step always returns the full index range, the loop
completes and appends every packet (as a fresh entry) back to the pool. -/
theorem runChunks_full_requeue (bank : Bank)
    (convOk : ImmutableDeserializedPacket → Bool → Bool) (src : VoteSource)
    (dep : Bool) (f : ProcessingFunction)
    (hf : ∀ n b t, (f n b t).1 = some (List.range n)) :
    ∀ (cl : List (List ImmutableDeserializedPacket)) (st : RoundState),
      (∀ p ∈ cl.flatten, admits bank p = true) →
      (∀ p ∈ cl.flatten, convOk p dep = true) →
      (∀ p ∈ cl.flatten, ∀ x ∈ st.pool.entries,
        x.packet.validator ≠ p.validator) →
      (cl.flatten.map (fun p => p.validator)).Nodup →
      ∃ st', runChunks bank convOk src dep f st cl = Except.ok st' ∧
        st'.pool.entries = st.pool.entries ++
          cl.flatten.map (fun p =>
            (⟨p, src, dep⟩ : LatestValidatorVotePacket)) := by
  intro cl
  induction cl with
  | nil =>
    intro st _ _ _ _
    exact ⟨st, rfl, by simp⟩
  | cons chunk rest ih =>
    intro st hadm hconv hfresh hnd
    have hmemc : ∀ p ∈ chunk, p ∈ (chunk :: rest).flatten := by
      intro p hp
      rw [List.flatten_cons]
      exact List.mem_append_left _ hp
    have hmemr : ∀ p ∈ rest.flatten, p ∈ (chunk :: rest).flatten := by
      intro p hp
      rw [List.flatten_cons]
      exact List.mem_append_right _ hp
    have hchunkadm : ∀ p ∈ chunk, admits bank p = true :=
      fun p hp => hadm p (hmemc p hp)
    have hchunkconv : ∀ p ∈ chunk, convOk p dep = true :=
      fun p hp => hconv p (hmemc p hp)
    have hndapp := hnd
    rw [List.flatten_cons, List.map_append, List.nodup_append] at hndapp
    have hcand : candidateBatch bank st chunk = chunk := by
      unfold candidateBatch
      cases hflag : st.reached_end_of_slot with
      | true => rw [filterChunk_true]; simp
      | false =>
        rw [filterChunk_false]
        simp only [List.nil_append]
        exact List.filter_eq_self.mpr hchunkadm
    have hverdict : stepVerdict bank f st chunk =
        some (List.range chunk.length) := by
      unfold stepVerdict
      rw [hf, hcand]
    have hall : (List.range chunk.length).all
        (fun i => decide (i < (candidateBatch bank st chunk).length)) = true := by
      rw [hcand, List.all_eq_true]
      intro i hi
      rw [decide_eq_true_eq]
      exact List.mem_range.mp hi
    have hpool : ((List.range chunk.length).filterMap (fun i =>
        ((candidateBatch bank st chunk)[i]?).bind (fun p =>
          new_from_immutable convOk p src dep))) =
        chunk.map (fun p => (⟨p, src, dep⟩ : LatestValidatorVotePacket)) := by
      rw [hcand,
        range_filterMap_getElem chunk
          (fun p => new_from_immutable convOk p src dep),
        filterMap_new_from_immutable_eq_map convOk src dep chunk hchunkconv]
    have hpc : processChunk bank convOk src dep f st chunk = Except.ok
        { reached_end_of_slot := stepFlagOut bank f st chunk
          sanitized_transactions := stepTxsOut bank f st chunk
          sanitization_events := handedEvents bank st chunk
          trace := st.trace ++ [mkCall bank f st chunk]
          pool := st.pool.insert_batch
            (chunk.map (fun p =>
              (⟨p, src, dep⟩ : LatestValidatorVotePacket))) true } := by
      rw [processChunk_eq, hverdict]
      dsimp only
      rw [if_pos hall, hpool]
    have hmapval : ((chunk.map (fun p =>
        (⟨p, src, dep⟩ : LatestValidatorVotePacket))).map
          (fun e => e.packet.validator)) =
        chunk.map (fun p => p.validator) := by
      rw [List.map_map]
      rfl
    have hins : (st.pool.insert_batch (chunk.map (fun p =>
        (⟨p, src, dep⟩ : LatestValidatorVotePacket))) true).entries =
        st.pool.entries ++ chunk.map (fun p =>
          (⟨p, src, dep⟩ : LatestValidatorVotePacket)) := by
      apply insert_batch_fresh
      · intro e he x hx
        obtain ⟨p, hp, hep⟩ := List.mem_map.mp he
        subst hep
        exact hfresh p (hmemc p hp) x hx
      · rw [hmapval]
        exact hndapp.1
    obtain ⟨st', hrun, hentries⟩ := ih
      { reached_end_of_slot := stepFlagOut bank f st chunk
        sanitized_transactions := stepTxsOut bank f st chunk
        sanitization_events := handedEvents bank st chunk
        trace := st.trace ++ [mkCall bank f st chunk]
        pool := st.pool.insert_batch
          (chunk.map (fun p =>
            (⟨p, src, dep⟩ : LatestValidatorVotePacket))) true }
      (fun p hp => hadm p (hmemr p hp))
      (fun p hp => hconv p (hmemr p hp))
      (by
        intro p hp x hx
        dsimp only at hx
        rw [hins] at hx
        rcases List.mem_append.mp hx with hx | hx
        · exact hfresh p (hmemr p hp) x hx
        · obtain ⟨q, hq, hqx⟩ := List.mem_map.mp hx
          subst hqx
          intro hcontra
          exact hndapp.2.2 (List.mem_map_of_mem _ hq)
            (hcontra ▸ List.mem_map_of_mem _ hp))
      hndapp.2.1
    refine ⟨st', ?_, ?_⟩
    · unfold runChunks
      rw [hpc]
      exact hrun
    · rw [hentries]
      dsimp only
      rw [hins, List.flatten_cons, List.map_append, List.append_assoc]

/-- C1 counterexample: a pool holding one packet whose sanitization fails.
The step returns the full index range `0..candidate_count` of every chunk
(`stepFullRange`), yet the round completes with an empty pool: the
filtered-out packet is not part of the candidate batch and is permanently
lost, so pool length is not preserved. -/
theorem c1_counterexample :
    VoteStorage.process_packets convAll (storageTpu [pkt00]) bankRejecting
        stepFullRange =
      Except.ok (⟨⟨[], false⟩, VoteSource.Tpu⟩, false) ∧
    (storageTpu [pkt00]).len = 1 ∧
    (⟨⟨[], false⟩, VoteSource.Tpu⟩ : VoteStorage).len = 0 ∧
    ¬ ((⟨⟨[], false⟩, VoteSource.Tpu⟩ : VoteStorage).len =
        (storageTpu [pkt00]).len) := by
  refine ⟨by decide, by decide, by decide, by decide⟩

/-- C1 (amended): on a non-Gossip instance whose pending packets all pass the
admission filter (sanitize and validate) and all reconvert to pool entries
under the round's legacy-format flag, and whose pool satisfies its
one-entry-per-validator invariant, a step returning the full index range
`0..candidate_count` for every chunk leaves the pool length unchanged. -/
theorem c1_round_trip_requeue_amended
    (convOk : ImmutableDeserializedPacket → Bool → Bool) (s : VoteStorage)
    (bank : Bank) (f : ProcessingFunction)
    (hsrc : s.vote_source = VoteSource.Tpu)
    (hf : ∀ n b t, (f n b t).1 = some (List.range n))
    (hadm : ∀ e ∈ s.latest_unprocessed_votes.entries,
      admits bank e.packet = true)
    (hconv : ∀ e ∈ s.latest_unprocessed_votes.entries,
      convOk e.packet
        s.latest_unprocessed_votes.should_deprecate_legacy_vote_ixs = true)
    (hnd : (s.latest_unprocessed_votes.entries.map
      (fun e => e.packet.validator)).Nodup) :
    (VoteStorage.process_packets convOk s bank f).map (fun r => r.1.len) =
      Except.ok s.len := by
  have hne : s.vote_source ≠ VoteSource.Gossip := by
    rw [hsrc]; intro hc; cases hc
  have hflat : (chunksOf UNPROCESSED_BUFFER_STEP_SIZE
      (s.latest_unprocessed_votes.drain_unprocessed).1).flatten =
      s.latest_unprocessed_votes.entries.map (fun e => e.packet) :=
    chunksOf_flatten _ _
  obtain ⟨st', hrun, hentries⟩ := runChunks_full_requeue bank convOk
    s.vote_source s.latest_unprocessed_votes.should_deprecate_legacy_vote_ixs
    f hf
    (chunksOf UNPROCESSED_BUFFER_STEP_SIZE
      (s.latest_unprocessed_votes.drain_unprocessed).1)
    { reached_end_of_slot := false
      sanitized_transactions := []
      sanitization_events := 0
      trace := []
      pool := (s.latest_unprocessed_votes.drain_unprocessed).2 }
    (by
      rw [hflat]
      intro p hp
      obtain ⟨e, he, hep⟩ := List.mem_map.mp hp
      exact hep ▸ hadm e he)
    (by
      rw [hflat]
      intro p hp
      obtain ⟨e, he, hep⟩ := List.mem_map.mp hp
      exact hep ▸ hconv e he)
    (by
      intro p _ x hx
      simp [LatestUnprocessedVotes.drain_unprocessed] at hx)
    (by
      rw [hflat, List.map_map]
      exact hnd)
  unfold VoteStorage.process_packets
  rw [process_packets_run_eq convOk s bank f hne, hrun]
  simp only [Except.map, Except.ok.injEq]
  have hlen : st'.pool.entries.length =
      s.latest_unprocessed_votes.entries.length := by
    rw [hentries, hflat]
    simp [LatestUnprocessedVotes.drain_unprocessed]
  simpa [VoteStorage.len, LatestUnprocessedVotes.len] using hlen

theorem c1_witness :
    (VoteStorage.process_packets convAll (storageTpu [pkt00]) bankAccepting
        stepFullRange).map (fun r => r.1.len) =
      Except.ok (storageTpu [pkt00]).len :=
  c1_round_trip_requeue_amended convAll (storageTpu [pkt00]) bankAccepting
    stepFullRange rfl (fun n b t => rfl) (by decide) (by decide) (by decide)

theorem admitTx_build (bank : Bank) (p : ImmutableDeserializedPacket)
    (tx : SanitizedTx) (h : admitTx bank p = some tx) :
    bank.buildSanitizedTransaction p = some tx := by
  unfold admitTx at h
  cases hb : bank.buildSanitizedTransaction p with
  | none => rw [hb] at h; cases h
  | some tx₁ =>
    rw [hb] at h
    dsimp only at h
    by_cases hcc : (bank.validateAccountLocksOk tx₁ &&
        bank.checkFeePayerUnlockedOk tx₁) = true
    · rw [if_pos hcc] at h
      cases h
      rfl
    · rw [if_neg hcc] at h
      cases h

theorem filterMap_admitTx_getElem (bank : Bank)
    (l : List ImmutableDeserializedPacket) :
    ∀ i : Nat, (l.filterMap (admitTx bank))[i]? =
      ((l.filter (fun p => admits bank p))[i]?).bind (admitTx bank) := by
  induction l with
  | nil => intro i; simp
  | cons x xs ih =>
    intro i
    cases hgx : admitTx bank x with
    | some tx =>
      have hadm : admits bank x = true := by simp [admits, hgx]
      cases i with
      | zero => simp [List.filterMap_cons, hgx, List.filter_cons, hadm]
      | succ j => simp [List.filterMap_cons, hgx, List.filter_cons, hadm, ih j]
    | none =>
      have hadm : admits bank x = false := by simp [admits, hgx]
      simp [List.filterMap_cons, hgx, List.filter_cons, hadm, ih i]

set_option maxRecDepth 16384 in
/-- C3 counterexample: 65 packets on a snapshot that admits everything, with
a step that sets the round-end flag on its first invocation and leaves the
transaction list untouched. At the second invocation the single fast-admitted
candidate of chunk 2 has no transaction at position 0 of the handed list
(position 0 holds chunk 1's first transaction), so the literal per-invocation
index correlation fails. -/
theorem c3_counterexample :
    ((traceOf (VoteStorage.process_packets_run convAll (storageTpu packets65)
      bankAccepting stepSetFlag)).all
        (fun c => c3StatedOK bankAccepting c)) = false := by
  decide

/-- C3 (amended): for every chunk whose admission phase begins with the
round-end flag unset, the transaction list handed to the step is the list at
chunk entry extended, in candidate order, by the admitted packets'
transactions: the transaction derived from the `i`-th candidate sits at
relative position (length at chunk entry) + `i` — in particular at position
`i` whenever the step leaves the list empty between chunks. The round-end
admission path is excluded: it builds no transactions. -/
theorem c3_index_correlation_amended
    (convOk : ImmutableDeserializedPacket → Bool → Bool) (s : VoteStorage)
    (bank : Bank) (f : ProcessingFunction)
    (h : roundOk (VoteStorage.process_packets_run convOk s bank f) = true) :
    ∀ c ∈ traceOf (VoteStorage.process_packets_run convOk s bank f),
      c.flag_on_entry = false →
      c.txs_handed = c.txs_on_entry ++ c.chunk.filterMap (admitTx bank) ∧
      (∀ (i : Nat) (p : ImmutableDeserializedPacket),
        c.candidates[i]? = some p →
        ∃ tx, bank.buildSanitizedTransaction p = some tx ∧
          c.txs_handed[c.txs_on_entry.length + i]? = some tx) := by
  cases hr : VoteStorage.process_packets_run convOk s bank f with
  | error e => rw [hr] at h; simp [roundOk] at h
  | ok st' =>
    obtain ⟨_, _, hgood⟩ := run_ok_facts convOk s bank f st' hr
    intro c hc hflag
    simp only [traceOf] at hc
    obtain ⟨hcand, htxs, _⟩ := ((hgood c hc).1).2.2.1 hflag
    refine ⟨htxs, ?_⟩
    intro i p hip
    have hpmem : p ∈ c.candidates := by
      have := List.getElem?_mem hip
      exact this
    have hpadm : admits bank p = true := by
      rw [hcand] at hpmem
      exact (List.mem_filter.mp hpmem).2
    obtain ⟨tx, htx⟩ : ∃ tx, admitTx bank p = some tx :=
      Option.isSome_iff_exists.mp (by unfold admits at hpadm; exact hpadm)
    refine ⟨tx, admitTx_build bank p tx htx, ?_⟩
    rw [htxs]
    rw [List.getElem?_append_right (by omega)]
    have hsub : c.txs_on_entry.length + i - c.txs_on_entry.length = i := by
      omega
    rw [hsub, filterMap_admitTx_getElem bank c.chunk i, ← hcand, hip]
    simpa using htx

theorem c3_witness :
    (⟨[pkt00], [pkt00], [], [0], 0, 1, false, false⟩ : StepCall) ∈
      traceOf (VoteStorage.process_packets_run convAll (storageTpu [pkt00])
        bankAccepting stepNone) ∧
    (⟨[pkt00], [pkt00], [], [0], 0, 1, false, false⟩ : StepCall).txs_handed =
      (⟨[pkt00], [pkt00], [], [0], 0, 1, false,
          false⟩ : StepCall).txs_on_entry ++
        (⟨[pkt00], [pkt00], [], [0], 0, 1, false,
          false⟩ : StepCall).chunk.filterMap (admitTx bankAccepting) :=
  ⟨by decide,
    (c3_index_correlation_amended convAll (storageTpu [pkt00]) bankAccepting
      stepNone (by decide) ⟨[pkt00], [pkt00], [], [0], 0, 1, false, false⟩
      (by decide) rfl).1⟩

/-- C8 counterexample: a pool already holding a pending entry for validator 0
receives one structurally-valid packet for the same validator. The packet
converts (1 structurally-valid packet), but plain insertion's no-replenish
rule drops it, so pool length stays 1 instead of increasing by 1 as the claim
states. -/
theorem c8_counterexample :
    (VoteStorage.insert_batch convAll (storageTpu [pkt00])
      [(⟨1, 0⟩ : ImmutableDeserializedPacket)]).len = 1 ∧
    (convertedEntries convAll (storageTpu [pkt00])
      [(⟨1, 0⟩ : ImmutableDeserializedPacket)]).length = 1 ∧
    (storageTpu [pkt00]).len = 1 ∧
    ¬ ((VoteStorage.insert_batch convAll (storageTpu [pkt00])
        [(⟨1, 0⟩ : ImmutableDeserializedPacket)]).len =
      (storageTpu [pkt00]).len +
        (convertedEntries convAll (storageTpu [pkt00])
          [(⟨1, 0⟩ : ImmutableDeserializedPacket)]).length) := by
  refine ⟨by decide, by decide, by decide, by decide⟩

/-- C8 (amended): `insert_batch` hands the pool exactly the successfully
converting packets, each tagged with the instance's intake source and the
pool's current legacy-format policy flag (failed conversions silently
dropped), in no-replenish mode — it never removes or refreshes an existing
pending entry — and pool length increases by exactly the number of
structurally-valid packets provided their validators are pairwise distinct
and none of them already has a pending entry (a valid packet whose validator
is already pending adds nothing, by the no-replenish rule). -/
theorem c8_insert_batch_amended
    (convOk : ImmutableDeserializedPacket → Bool → Bool) (s : VoteStorage)
    (packets : List ImmutableDeserializedPacket) :
    (VoteStorage.insert_batch convOk s packets).latest_unprocessed_votes =
      s.latest_unprocessed_votes.insert_batch
        (convertedEntries convOk s packets) false ∧
    (∀ e ∈ convertedEntries convOk s packets,
      e.vote_source = s.vote_source ∧
      e.deprecateLegacy =
        s.latest_unprocessed_votes.should_deprecate_legacy_vote_ixs ∧
      e.packet ∈ packets) ∧
    (∀ x ∈ s.latest_unprocessed_votes.entries,
      x ∈ (VoteStorage.insert_batch convOk s
        packets).latest_unprocessed_votes.entries) ∧
    (((convertedEntries convOk s packets).map
        (fun e => e.packet.validator)).Nodup →
      (∀ e ∈ convertedEntries convOk s packets,
        ∀ x ∈ s.latest_unprocessed_votes.entries,
          x.packet.validator ≠ e.packet.validator) →
      (VoteStorage.insert_batch convOk s packets).len =
        s.len + (convertedEntries convOk s packets).length) := by
  refine ⟨rfl, ?_, ?_, ?_⟩
  · intro e he
    rcases List.mem_filterMap.mp he with ⟨p, hp, hc⟩
    unfold new_from_immutable at hc
    split at hc
    · cases hc
      exact ⟨rfl, rfl, hp⟩
    · cases hc
  · intro x hx
    exact insert_batch_preserves s.latest_unprocessed_votes
      (convertedEntries convOk s packets) x hx
  · intro hnd hfresh
    have happ := insert_batch_fresh s.latest_unprocessed_votes
      (convertedEntries convOk s packets) false hfresh hnd
    have h1 : (VoteStorage.insert_batch convOk s packets).len =
        ((s.latest_unprocessed_votes.insert_batch
          (convertedEntries convOk s packets) false).entries).length := rfl
    rw [h1, happ, List.length_append]
    rfl

theorem c8_witness :
    (VoteStorage.insert_batch convAll (storageTpu [pkt00])
      [(⟨1, 1⟩ : ImmutableDeserializedPacket)]).len =
      (storageTpu [pkt00]).len +
        (convertedEntries convAll (storageTpu [pkt00])
          [(⟨1, 1⟩ : ImmutableDeserializedPacket)]).length :=
  (c8_insert_batch_amended convAll (storageTpu [pkt00])
    [(⟨1, 1⟩ : ImmutableDeserializedPacket)]).2.2.2 (by decide) (by decide)

end VoteStorageSpec
